import Mathlib

/-!
# Verification of the peg-solitaire engine (`src/main.py`)

Shallow embedding of the board and move engine of the `Solitaire` class.

Encoding of cells: the Python code stores the strings `" "` (corner
cut-out), `"0"` (empty valid position) and `"1"` (peg); we use the
three-valued `Cell` type with the same meaning.

Python list indexing `xs[i]` accepts negative indices (wrapping by the
list length) and raises `IndexError` outside `[-len, len)`; this is
modelled by `pyIdx` returning an `Option`, and two-dimensional access by
`pyGet` / `pySet`.  Places where the Python code would raise an exception
correspond to `none` results.
-/

inductive Cell where
  | empty : Cell
  | hole : Cell
  | peg : Cell
deriving DecidableEq, Repr

/-- The `MOVE` enum of `main.py` (directions of a jump). -/
inductive MOVE where
  | RIGHT : MOVE
  | LEFT : MOVE
  | UP : MOVE
  | DOWN : MOVE
deriving DecidableEq, Repr

/-- The `DIRECTIONS` table of `main.py`: each direction maps to
`(landing_row_offset, landing_col_offset, jumped_row_offset, jumped_col_offset)`. -/
def DIRECTIONS : MOVE → Int × Int × Int × Int
  | .RIGHT => (0, 2, 0, 1)
  | .LEFT => (0, -2, 0, -1)
  | .UP => (-2, 0, -1, 0)
  | .DOWN => (2, 0, 1, 0)

/-- The iteration order of `DIRECTIONS.keys()` (dict insertion order). -/
def dirList : List MOVE := [.RIGHT, .LEFT, .UP, .DOWN]

abbrev Board := List (List Cell)

/-- Normalisation of a Python list index of a list of length `n`:
negative indices wrap by `n`; the result is `some j` with `j` the actual
position, or `none` when Python would raise `IndexError`. -/
def pyNorm (n : Nat) (i : Int) : Option Nat :=
  let j := if i < 0 then i + n else i
  if 0 ≤ j ∧ j < n then some j.toNat else none

/-- Python `xs[i]` for reading. -/
def pyIdx (xs : List α) (i : Int) : Option α :=
  (pyNorm xs.length i).bind fun j => xs[j]?

/-- Python `board[r][c]` for reading. -/
def pyGet (b : Board) (r c : Int) : Option Cell :=
  (pyIdx b r).bind fun row => pyIdx row c

/-- Python `xs[i] = v` on a one-dimensional list. -/
def pySetRow (xs : List α) (i : Int) (v : α) : Option (List α) :=
  (pyNorm xs.length i).map fun j => xs.set j v

/-- Python `board[r][c] = v`: fetches row `r`, assigns at column `c`.
`none` when Python would raise `IndexError`. -/
def pySet (b : Board) (r c : Int) (v : Cell) : Option Board :=
  (pyNorm b.length r).bind fun i =>
    (b[i]?).bind fun row =>
      (pySetRow row c v).map fun row2 => b.set i row2

/-- The `Solitaire` class state: `_size` and `board`.
(`_corner_size` is the constant `(2, 2)`; the move counter and logging
closures are presentation-layer state with no bearing on the engine.) -/
structure Solitaire where
  size : Int
  board : Board
deriving DecidableEq, Repr

/-- The nested `is_corner` of `_setup_board` with `corner_size = (2, 2)`:
`(row < 2 or row >= size - 2) and (col < 2 or col >= size - 2)`. -/
def isCorner (size : Int) (r c : Int) : Bool :=
  (decide (r < 2) || decide (size - 2 ≤ r)) && (decide (c < 2) || decide (size - 2 ≤ c))

/-- The list comprehension of `_setup_board`: the `size × size` grid with
`" "` on corner cells and `"1"` elsewhere (`range` of a negative size is
empty, hence `toNat`). -/
def initialGrid (size : Int) : Board :=
  (List.range size.toNat).map fun (r : Nat) =>
    (List.range size.toNat).map fun (c : Nat) =>
      if isCorner size (r : Int) (c : Int) then Cell.empty else Cell.peg

/-- `Solitaire._setup_board`: builds the grid, then assigns `"0"` at
`(size // 2, size // 2)` (Python floor division, negative indices
wrapping).  The assignment raises `IndexError` for `size ≤ 0` (empty
grid); this is the `none` case. -/
def setupBoard (size : Int) : Option Board :=
  pySet (initialGrid size) (size.fdiv 2) (size.fdiv 2) Cell.hole

/-- `Solitaire.__init__(size)`: stores `size` and the constructed board.
No size validation of any kind is performed by the constructor. -/
def Solitaire.construct (size : Int) : Option Solitaire :=
  (setupBoard size).map fun b => { size := size, board := b }

/-- A move tuple `(row, col, direction)` as enumerated / applied. -/
abbrev Move := Int × Int × MOVE

/-- The nested `is_valid_move` of `get_valid_moves`.  The initial
`direction not in DIRECTIONS` guard is always false for a `MOVE` value
(the table has an entry for all four members), so it is omitted.
Reads outside the board yield `none ≠ some _`, hence `false`; in the
calls made by `get_valid_moves` every read is in bounds (see
`jumped_cell_in_bounds`). -/
def is_valid_move (s : Solitaire) (row col : Int) (d : MOVE) : Bool :=
  let off := DIRECTIONS d
  let rowMoved := row + off.1
  let colMoved := col + off.2.1
  let removedRow := row + off.2.2.1
  let removedCol := col + off.2.2.2
  decide (0 ≤ rowMoved) && decide (rowMoved < s.size) &&
  decide (0 ≤ colMoved) && decide (colMoved < s.size) &&
  (pyGet s.board row col == some Cell.peg) &&
  (pyGet s.board rowMoved colMoved == some Cell.hole) &&
  (pyGet s.board removedRow removedCol == some Cell.peg)

/-- `itertools.product(range(size), range(size), DIRECTIONS.keys())`:
row-major, with the last factor (the direction) varying fastest. -/
def allOptions (size : Int) : List Move :=
  (List.range size.toNat).flatMap fun (r : Nat) =>
    (List.range size.toNat).flatMap fun (c : Nat) =>
      dirList.map fun d => ((r : Int), (c : Int), d)

/-- `Solitaire.get_valid_moves`: filters the product of all options by
`is_valid_move`, preserving the product's order. -/
def get_valid_moves (s : Solitaire) : List Move :=
  (allOptions s.size).filter fun m => is_valid_move s m.1 m.2.1 m.2.2

/-- Outcome of `apply_move`: Python raises `ValueError("Invalid move")`
for a move not in the current valid-move list; an out-of-range write
would raise `IndexError` (never reached for a valid move). -/
inductive ApplyErr where
  | invalidMove : ApplyErr
  | indexError : ApplyErr
deriving DecidableEq, Repr

/-- `Solitaire.apply_move`: membership check, then three sequential cell
assignments (origin → `"0"`, jumped-over → `"0"`, landing → `"1"`).
Returns the state as left by Python together with the exception raised,
if any: the `ValueError` is raised before any write, so the board is
returned unchanged in that case; a failing write leaves the earlier
writes in place, exactly as in Python. -/
def apply_move (s : Solitaire) (m : Move) : Solitaire × Option ApplyErr :=
  if m ∈ get_valid_moves s then
    let off := DIRECTIONS m.2.2
    match pySet s.board m.1 m.2.1 Cell.hole with
    | none => (s, some .indexError)
    | some b1 =>
      match pySet b1 (m.1 + off.2.2.1) (m.2.1 + off.2.2.2) Cell.hole with
      | none => ({ s with board := b1 }, some .indexError)
      | some b2 =>
        match pySet b2 (m.1 + off.1) (m.2.1 + off.2.1) Cell.peg with
        | none => ({ s with board := b2 }, some .indexError)
        | some b3 => ({ s with board := b3 }, none)
  else (s, some .invalidMove)

/-- `Solitaire.count_pegs`: `sum(row.count("1") for row in self.board)`. -/
def count_pegs (s : Solitaire) : Nat :=
  (s.board.map fun row => row.count Cell.peg).sum

/-- Count of occupied positions (`Peg` plus `Hole` cells). -/
def count_occupied (s : Solitaire) : Nat :=
  (s.board.map fun row => row.count Cell.peg + row.count Cell.hole).sum

/-- `Solitaire.validate_win`:
`count_pegs() == 1 and board[size // 2][size // 2] == "1"`. -/
def validate_win (s : Solitaire) : Bool :=
  count_pegs s == 1 && (pyGet s.board (s.size.fdiv 2) (s.size.fdiv 2) == some Cell.peg)

/-- The driver's game-over test (`main`, `if not moves:`). -/
def noMoves (s : Solitaire) : Bool :=
  (get_valid_moves s).isEmpty

/-- Well-formedness: the stored board is a `size × size` grid (true of
every board the program constructs and maintains). -/
def Wf (s : Solitaire) : Prop :=
  s.board.length = s.size.toNat ∧ ∀ row ∈ s.board, row.length = s.size.toNat

/-- The spec's `board.get(row, col)`: defined only on indices in
`[0, size)` — no negative-index wraparound.  Used to state the spec-side
legality conditions, to be compared against the code's reads. -/
def specGet (b : Board) (r c : Int) : Option Cell :=
  if 0 ≤ r then
    (b[r.toNat]?).bind fun row => if 0 ≤ c then row[c.toNat]? else none
  else none

/-- The spec's four-clause legality condition for a move `(row, col, d)`:
landing cell in bounds, origin a `Peg`, jumped-over cell a `Peg`,
landing cell a `Hole` (reads per `specGet`, without wraparound). -/
def specLegal (s : Solitaire) (row col : Int) (d : MOVE) : Prop :=
  let off := DIRECTIONS d
  (0 ≤ row + off.1 ∧ row + off.1 < s.size ∧ 0 ≤ col + off.2.1 ∧ col + off.2.1 < s.size) ∧
  specGet s.board row col = some Cell.peg ∧
  specGet s.board (row + off.2.2.1) (col + off.2.2.2) = some Cell.peg ∧
  specGet s.board (row + off.1) (col + off.2.1) = some Cell.hole

/-- Position of a direction in the declaration order of `DIRECTIONS`. -/
def dirIdx : MOVE → Nat
  | .RIGHT => 0
  | .LEFT => 1
  | .UP => 2
  | .DOWN => 3

/-- Strict row-major order on moves: by row, then column, then by the
declaration order of the direction table. -/
def moveLt (m1 m2 : Move) : Prop :=
  m1.1 < m2.1 ∨ (m1.1 = m2.1 ∧ (m1.2.1 < m2.2.1 ∨
    (m1.2.1 = m2.2.1 ∧ dirIdx m1.2.2 < dirIdx m2.2.2)))

/-- Repeated application of `apply_move`, stopping at the first raised
exception (the driver applies only enumerated moves, so the exception
branch is never taken by the program itself). -/
def applySeq : Solitaire → List Move → Option Solitaire
  | s, [] => some s
  | s, m :: ms =>
    match apply_move s m with
    | (s1, none) => applySeq s1 ms
    | (_, some _) => none

/-- All corner-cut-out cells of the grid are `Empty`. -/
def CornersEmpty (s : Solitaire) : Prop :=
  ∀ r : Nat, r < s.size.toNat → ∀ c : Nat, c < s.size.toNat →
    isCorner s.size r c = true → pyGet s.board r c = some Cell.empty

/-- The classic freshly-constructed 7×7 board. -/
def classic : Solitaire := (Solitaire.construct 7).getD { size := 0, board := [] }

/-- The freshly-constructed 5×5 board. -/
def board5 : Solitaire := (Solitaire.construct 5).getD { size := 0, board := [] }

/-- A 5×5 board with a single peg at the center: used to witness the
single-peg terminal property. -/
def onePeg : Solitaire :=
  { size := 5
    board := (List.range 5).map fun r => (List.range 5).map fun c =>
      if r = 2 ∧ c = 2 then Cell.peg else Cell.hole }

instance (s : Solitaire) : Decidable (Wf s) := by
  unfold Wf
  infer_instance

instance (s : Solitaire) (row col : Int) (d : MOVE) : Decidable (specLegal s row col d) := by
  unfold specLegal
  infer_instance

instance (s : Solitaire) : Decidable (CornersEmpty s) := by
  unfold CornersEmpty
  infer_instance

/- ------------------------------------------------------------------ -/
/- Helper lemmas                                                       -/
/- ------------------------------------------------------------------ -/

theorem pyIdx_nonneg {α : Type} (xs : List α) (i : Int) (h : 0 ≤ i) :
    pyIdx xs i = xs[i.toNat]? := by
  unfold pyIdx pyNorm
  simp only [Int.not_lt.mpr h, if_neg (by omega : ¬ i < 0)]
  by_cases hlt : i < (xs.length : Int)
  · simp [h, hlt]
  · have hlen : xs.length ≤ i.toNat := by omega
    simp [h, hlt, List.getElem?_eq_none hlen]

theorem pyGet_nonneg (b : Board) (r c : Int) (hr : 0 ≤ r) (hc : 0 ≤ c) :
    pyGet b r c = (b[r.toNat]?).bind fun row => row[c.toNat]? := by
  unfold pyGet
  rw [pyIdx_nonneg b r hr]
  cases b[r.toNat]? with
  | none => rfl
  | some row => simp [pyIdx_nonneg row c hc]

theorem specGet_eq_pyGet (b : Board) (r c : Int) (hr : 0 ≤ r) (hc : 0 ≤ c) :
    specGet b r c = pyGet b r c := by
  rw [pyGet_nonneg b r c hr hc]
  unfold specGet
  simp only [if_pos hr]
  cases b[r.toNat]? with
  | none => rfl
  | some row => simp [if_pos hc]

theorem specGet_eq_some {b : Board} {r c : Int} {v : Cell}
    (h : specGet b r c = some v) :
    0 ≤ r ∧ 0 ≤ c ∧ ∃ row, b[r.toNat]? = some row ∧ row[c.toNat]? = some v := by
  unfold specGet at h
  by_cases hr : 0 ≤ r
  · rw [if_pos hr] at h
    cases hrow : b[r.toNat]? with
    | none => rw [hrow] at h; simp at h
    | some row =>
      rw [hrow] at h
      simp only [Option.some_bind] at h
      by_cases hc : 0 ≤ c
      · rw [if_pos hc] at h
        exact ⟨hr, hc, row, rfl, h⟩
      · rw [if_neg hc] at h
        cases h
  · rw [if_neg hr] at h
    cases h

theorem pyNorm_eq_some {n : Nat} {i : Int} (h0 : 0 ≤ i) (h1 : i < (n : Int)) :
    pyNorm n i = some i.toNat := by
  have hneg : ¬ i < 0 := by omega
  simp [pyNorm, hneg, h0, h1]

theorem pySet_eq_some (b : Board) (r c : Int) (v : Cell) (row : List Cell)
    (hr0 : 0 ≤ r) (hr : r < (b.length : Int)) (hrow : b[r.toNat]? = some row)
    (hc0 : 0 ≤ c) (hc : c < (row.length : Int)) :
    pySet b r c v = some (b.set r.toNat (row.set c.toNat v)) := by
  simp [pySet, pySetRow, pyNorm_eq_some hr0 hr, pyNorm_eq_some hc0 hc, hrow]

theorem initialGrid_getElem? (size : Int) (r : Nat) (hr : r < size.toNat) :
    (initialGrid size)[r]? =
      some ((List.range size.toNat).map fun (c : Nat) =>
        if isCorner size (r : Int) (c : Int) then Cell.empty else Cell.peg) := by
  unfold initialGrid
  rw [List.getElem?_map, List.getElem?_range hr]
  rfl

theorem mem_dirList (d : MOVE) : d ∈ dirList := by
  cases d <;> decide

theorem mem_allOptions {size : Int} {m : Move} :
    m ∈ allOptions size ↔ 0 ≤ m.1 ∧ m.1 < size ∧ 0 ≤ m.2.1 ∧ m.2.1 < size := by
  obtain ⟨r, c, d⟩ := m
  unfold allOptions
  simp only [List.mem_flatMap, List.mem_map, List.mem_range]
  constructor
  · rintro ⟨rn, hrn, cn, hcn, d2, -, heq⟩
    simp only [Prod.mk.injEq] at heq
    obtain ⟨e1, e2, -⟩ := heq
    subst e1
    subst e2
    exact ⟨by omega, by omega, by omega, by omega⟩
  · rintro ⟨h1, h2, h3, h4⟩
    have er : ((r.toNat : Int)) = r := by omega
    have ec : ((c.toNat : Int)) = c := by omega
    exact ⟨r.toNat, by omega, c.toNat, by omega, d, mem_dirList d, by rw [er, ec]⟩

theorem is_valid_move_iff {s : Solitaire} {r c : Int} {d : MOVE} :
    is_valid_move s r c d = true ↔
      (0 ≤ r + (DIRECTIONS d).1 ∧ r + (DIRECTIONS d).1 < s.size ∧
        0 ≤ c + (DIRECTIONS d).2.1 ∧ c + (DIRECTIONS d).2.1 < s.size) ∧
      pyGet s.board r c = some Cell.peg ∧
      pyGet s.board (r + (DIRECTIONS d).1) (c + (DIRECTIONS d).2.1) = some Cell.hole ∧
      pyGet s.board (r + (DIRECTIONS d).2.2.1) (c + (DIRECTIONS d).2.2.2) = some Cell.peg := by
  unfold is_valid_move
  simp only [Bool.and_eq_true, decide_eq_true_eq, beq_iff_eq]
  tauto

theorem mem_get_valid_moves {s : Solitaire} {r c : Int} {d : MOVE} :
    (r, c, d) ∈ get_valid_moves s ↔
      (0 ≤ r ∧ r < s.size ∧ 0 ≤ c ∧ c < s.size) ∧ is_valid_move s r c d = true := by
  unfold get_valid_moves
  rw [List.mem_filter]
  exact and_congr_left fun _ => mem_allOptions

theorem moveLt_irrefl (m : Move) : ¬ moveLt m m := by
  simp [moveLt]

theorem allOptions_pairwise (size : Int) : (allOptions size).Pairwise moveLt := by
  unfold allOptions
  rw [List.pairwise_flatMap]
  constructor
  · intro r _
    rw [List.pairwise_flatMap]
    constructor
    · intro c _
      rw [List.pairwise_map]
      simp [dirList, moveLt, dirIdx]
    · refine (List.pairwise_lt_range _).imp ?_
      intro c1 c2 hlt x hx y hy
      simp only [List.mem_map] at hx hy
      obtain ⟨d1, -, rfl⟩ := hx
      obtain ⟨d2, -, rfl⟩ := hy
      exact Or.inr ⟨rfl, Or.inl (by show (c1 : Int) < (c2 : Int); exact_mod_cast hlt)⟩
  · refine (List.pairwise_lt_range _).imp ?_
    intro r1 r2 hlt x hx y hy
    simp only [List.mem_flatMap, List.mem_map, List.mem_range] at hx hy
    obtain ⟨c1, -, d1, -, rfl⟩ := hx
    obtain ⟨c2, -, d2, -, rfl⟩ := hy
    exact Or.inl (by show (r1 : Int) < (r2 : Int); exact_mod_cast hlt)

theorem allOptions_length (size : Int) :
    (allOptions size).length = size.toNat * size.toNat * 4 := by
  simp [allOptions, dirList, Function.comp_def]
  ring

theorem count_set_cell (row : List Cell) (j : Nat) (a v x : Cell)
    (hj : row[j]? = some a) :
    (row.set j v).count x + (if a = x then 1 else 0)
      = row.count x + (if v = x then 1 else 0) := by
  induction row generalizing j with
  | nil => simp at hj
  | cons hd tl ih =>
    cases j with
    | zero =>
      simp only [List.getElem?_cons_zero, Option.some.injEq] at hj
      subst hj
      simp only [List.set_cons_zero, List.count_cons, beq_iff_eq]
      by_cases h1 : hd = x <;> by_cases h2 : v = x <;> simp [h1, h2]
    | succ n =>
      simp only [List.getElem?_cons_succ] at hj
      have hrec := ih n hj
      simp only [List.set_cons_succ, List.count_cons, beq_iff_eq]
      by_cases h2 : hd = x <;> simp [h2] <;> omega

theorem sum_set_nat (l : List Nat) (i : Nat) (a v : Nat) (hi : l[i]? = some a) :
    (l.set i v).sum + a = l.sum + v := by
  induction l generalizing i with
  | nil => simp at hi
  | cons hd tl ih =>
    cases i with
    | zero =>
      simp only [List.getElem?_cons_zero, Option.some.injEq] at hi
      subst hi
      simp only [List.set_cons_zero, List.sum_cons]
      omega
    | succ n =>
      simp only [List.getElem?_cons_succ] at hi
      have hrec := ih n hi
      simp only [List.set_cons_succ, List.sum_cons]
      omega

theorem sum_map_add {α : Type} (l : List α) (f g : α → Nat) :
    (l.map fun a => f a + g a).sum
      = (l.map fun a => f a).sum + (l.map fun a => g a).sum := by
  induction l with
  | nil => rfl
  | cons hd tl ih =>
    simp only [List.map_cons, List.sum_cons, ih]
    omega

theorem pyGet_nonneg_eq_some {b : Board} {r c : Int} {v : Cell}
    (h0 : 0 ≤ r) (h1 : 0 ≤ c) (h : pyGet b r c = some v) :
    ∃ row, b[r.toNat]? = some row ∧ row[c.toNat]? = some v := by
  rw [pyGet_nonneg _ _ _ h0 h1] at h
  cases hrow : b[r.toNat]? with
  | none => rw [hrow] at h; simp at h
  | some row => rw [hrow] at h; exact ⟨row, rfl, h⟩

/-- One successful Python cell assignment at a nonnegative in-bounds
position: it succeeds, writes that cell, keeps the board shape, leaves
every other cell unchanged, and shifts each cell-value count by the
exchanged values. -/
theorem pySet_step {b : Board} {r c : Int} {a : Cell} (v : Cell)
    (h0 : 0 ≤ r) (h1 : 0 ≤ c) (hread : pyGet b r c = some a) :
    ∃ b2, pySet b r c v = some b2 ∧
      b2.length = b.length ∧
      pyGet b2 r c = some v ∧
      (∀ r' c' : Int, 0 ≤ r' → 0 ≤ c' → (r', c') ≠ (r, c) →
        pyGet b2 r' c' = pyGet b r' c') ∧
      (∀ x : Cell, (b2.map fun rho => rho.count x).sum + (if a = x then 1 else 0)
        = (b.map fun rho => rho.count x).sum + (if v = x then 1 else 0)) := by
  obtain ⟨row, hrow, hcell⟩ := pyGet_nonneg_eq_some h0 h1 hread
  have hi : r.toNat < b.length := (List.getElem?_eq_some_iff.mp hrow).1
  have hj : c.toNat < row.length := (List.getElem?_eq_some_iff.mp hcell).1
  refine ⟨b.set r.toNat (row.set c.toNat v),
    pySet_eq_some b r c v row h0 (by omega) hrow h1 (by omega),
    by simp, ?_, ?_, ?_⟩
  · rw [pyGet_nonneg _ _ _ h0 h1]
    rw [List.getElem?_set_self (by omega)]
    simp only [Option.some_bind]
    rw [List.getElem?_set_self (by simpa using hj)]
  · intro r' c' h0' h1' hne
    rw [pyGet_nonneg _ _ _ h0' h1', pyGet_nonneg _ _ _ h0' h1']
    by_cases hri : r'.toNat = r.toNat
    · have hre : r' = r := by omega
      have hcj : c'.toNat ≠ c.toNat := by
        intro hcc
        exact hne (by rw [hre]; rw [show c' = c by omega])
      rw [hri, List.getElem?_set_self (by omega), hrow]
      simp only [Option.some_bind]
      rw [List.getElem?_set_ne (fun hccc => hcj hccc.symm)]
    · rw [List.getElem?_set_ne (fun hr => hri hr.symm)]
  · intro x
    rw [List.map_set]
    have hm : (b.map fun rho => rho.count x)[r.toNat]? = some (row.count x) := by
      rw [List.getElem?_map, hrow]
      rfl
    have h1s := sum_set_nat (b.map fun rho => rho.count x) r.toNat (row.count x)
      ((row.set c.toNat v).count x) hm
    have h2s := count_set_cell row c.toNat a v x hcell
    omega

/- ------------------------------------------------------------------ -/
/- Claim theorems                                                      -/
/- ------------------------------------------------------------------ -/

/-- C5: `get_valid_moves` yields its moves in strictly increasing
row-major order (per cell, directions in the declaration order
Right, Left, Up, Down of the table), hence contains no duplicate,
and its length is at most `size² × 4`.  Being a pure function of the
board state, it is deterministic. -/
theorem get_valid_moves_deterministic_ordered (s : Solitaire) :
    (get_valid_moves s).Pairwise moveLt ∧ (get_valid_moves s).Nodup ∧
      (get_valid_moves s).length ≤ s.size.toNat * s.size.toNat * 4 := by
  have hsub : List.Sublist (get_valid_moves s) (allOptions s.size) :=
    List.filter_sublist _
  have hpw : (get_valid_moves s).Pairwise moveLt :=
    List.Pairwise.sublist hsub (allOptions_pairwise s.size)
  refine ⟨hpw, ?_, ?_⟩
  · exact hpw.imp fun h heq => absurd (heq ▸ h) (moveLt_irrefl _)
  · calc (get_valid_moves s).length ≤ (allOptions s.size).length :=
        List.Sublist.length_le hsub
      _ = s.size.toNat * s.size.toNat * 4 := allOptions_length s.size

/-- C10: for an in-bounds origin and any direction of the table, when the
landing-cell bounds check passes the jumped-over cell is also in
`[0, size)`, and all three reads of the legality test address the board
without negative-index wraparound (they agree with the strict
bounds-checked read `specGet`). -/
theorem jumped_cell_in_bounds (size r c : Int) (d : MOVE)
    (h1 : 0 ≤ r) (h2 : r < size) (h3 : 0 ≤ c) (h4 : c < size)
    (h5 : 0 ≤ r + (DIRECTIONS d).1) (h6 : r + (DIRECTIONS d).1 < size)
    (h7 : 0 ≤ c + (DIRECTIONS d).2.1) (h8 : c + (DIRECTIONS d).2.1 < size) :
    (0 ≤ r + (DIRECTIONS d).2.2.1 ∧ r + (DIRECTIONS d).2.2.1 < size ∧
      0 ≤ c + (DIRECTIONS d).2.2.2 ∧ c + (DIRECTIONS d).2.2.2 < size) ∧
    ∀ b : Board,
      pyGet b r c = specGet b r c ∧
      pyGet b (r + (DIRECTIONS d).2.2.1) (c + (DIRECTIONS d).2.2.2) =
        specGet b (r + (DIRECTIONS d).2.2.1) (c + (DIRECTIONS d).2.2.2) ∧
      pyGet b (r + (DIRECTIONS d).1) (c + (DIRECTIONS d).2.1) =
        specGet b (r + (DIRECTIONS d).1) (c + (DIRECTIONS d).2.1) := by
  cases d <;>
    simp only [DIRECTIONS] at * <;>
    exact ⟨by omega, fun b =>
      ⟨(specGet_eq_pyGet b _ _ (by omega) (by omega)).symm,
       (specGet_eq_pyGet b _ _ (by omega) (by omega)).symm,
       (specGet_eq_pyGet b _ _ (by omega) (by omega)).symm⟩⟩

/-- Witness for `jumped_cell_in_bounds` at size 7, origin `(3, 3)`,
direction `RIGHT`, on the classic board. -/
theorem jumped_cell_in_bounds_witness :
    (0 ≤ (3 : Int) + (DIRECTIONS MOVE.RIGHT).2.2.1 ∧
      (3 : Int) + (DIRECTIONS MOVE.RIGHT).2.2.1 < 7 ∧
      0 ≤ (3 : Int) + (DIRECTIONS MOVE.RIGHT).2.2.2 ∧
      (3 : Int) + (DIRECTIONS MOVE.RIGHT).2.2.2 < 7) ∧
    pyGet classic.board 3 3 = specGet classic.board 3 3 :=
  ⟨(jumped_cell_in_bounds 7 3 3 MOVE.RIGHT (by decide) (by decide) (by decide)
      (by decide) (by decide) (by decide) (by decide) (by decide)).1,
   ((jumped_cell_in_bounds 7 3 3 MOVE.RIGHT (by decide) (by decide) (by decide)
      (by decide) (by decide) (by decide) (by decide) (by decide)).2 classic.board).1⟩

/-- C4: a move `(row, col, d)` is enumerated by `get_valid_moves` exactly
when the spec's four legality clauses hold: landing cell in bounds,
origin a `Peg`, jumped-over cell a `Peg`, landing cell a `Hole`. -/
theorem get_valid_moves_mem_iff_specLegal (s : Solitaire) (hwf : Wf s)
    (r c : Int) (d : MOVE) :
    (r, c, d) ∈ get_valid_moves s ↔ specLegal s r c d := by
  rw [mem_get_valid_moves, is_valid_move_iff]
  unfold specLegal
  constructor
  · rintro ⟨⟨hr0, hrs, hc0, hcs⟩, hb, horig, hland, hjump⟩
    have hj := (jumped_cell_in_bounds s.size r c d hr0 hrs hc0 hcs
      hb.1 hb.2.1 hb.2.2.1 hb.2.2.2).1
    refine ⟨hb, ?_, ?_, ?_⟩
    · rw [specGet_eq_pyGet _ _ _ hr0 hc0]; exact horig
    · rw [specGet_eq_pyGet _ _ _ hj.1 hj.2.2.1]; exact hjump
    · rw [specGet_eq_pyGet _ _ _ hb.1 hb.2.2.1]; exact hland
  · rintro ⟨hb, horig, hjump, hland⟩
    obtain ⟨hr0, hc0, row, hrow, hcell⟩ := specGet_eq_some horig
    have hrlen : r.toNat < s.board.length := (List.getElem?_eq_some_iff.mp hrow).1
    have hclen : c.toNat < row.length := (List.getElem?_eq_some_iff.mp hcell).1
    have hrowlen : row.length = s.size.toNat := hwf.2 row (List.getElem?_mem hrow)
    have hblen : s.board.length = s.size.toNat := hwf.1
    have hrs : r < s.size := by omega
    have hcs : c < s.size := by omega
    have hj := (jumped_cell_in_bounds s.size r c d hr0 hrs hc0 hcs
      hb.1 hb.2.1 hb.2.2.1 hb.2.2.2).1
    refine ⟨⟨hr0, hrs, hc0, hcs⟩, hb, ?_, ?_, ?_⟩
    · rw [← specGet_eq_pyGet _ _ _ hr0 hc0]; exact horig
    · rw [← specGet_eq_pyGet _ _ _ hb.1 hb.2.2.1]; exact hland
    · rw [← specGet_eq_pyGet _ _ _ hj.1 hj.2.2.1]; exact hjump

/-- Witness for `get_valid_moves_mem_iff_specLegal`: the classic board is
well-formed and the move `(1, 3, DOWN)` instantiates the equivalence. -/
theorem get_valid_moves_mem_iff_specLegal_witness :
    Wf classic ∧
      (((1 : Int), (3 : Int), MOVE.DOWN) ∈ get_valid_moves classic ↔
        specLegal classic 1 3 MOVE.DOWN) :=
  ⟨by decide, get_valid_moves_mem_iff_specLegal classic (by decide) 1 3 MOVE.DOWN⟩

/-- C1, counterexample: the constructor performs no size validation.  At
the even size 4 it raises no error and produces a board object, contrary
to the claim that construction fails for every even size. -/
theorem construct_accepts_even_size :
    (4 : Int) % 2 = 0 ∧ (Solitaire.construct 4).isSome = true := by
  decide

/-- C1, amended: for every positive size — even sizes and sizes below 5
included — the constructor succeeds and produces a board object; the
only size check in the program is the presentation layer's
`ask_custom_size` prompt (oddness only, so sizes 1 and 3 also pass). -/
theorem construct_succeeds_of_pos (size : Int) (h : 1 ≤ size) :
    (Solitaire.construct size).isSome = true := by
  have hfd : size.fdiv 2 = size / 2 := Int.fdiv_eq_ediv _ (by omega)
  have hc0 : 0 ≤ size / 2 := by omega
  have hnn : 0 ≤ size := by omega
  have hsz : ((size.toNat : Int)) = size := Int.toNat_of_nonneg hnn
  have hcs : size / 2 < size := by omega
  have hkn : (size / 2).toNat < size.toNat := by omega
  have hlen : (initialGrid size).length = size.toNat := by
    simp [initialGrid]
  have hrlen :
      ((List.range size.toNat).map fun (c : Nat) =>
        if isCorner size (((size / 2).toNat : Nat) : Int) (c : Int) then Cell.empty
        else Cell.peg).length = size.toNat := by
    simp
  unfold Solitaire.construct setupBoard
  rw [hfd, pySet_eq_some _ _ _ _ _ hc0 (by rw [hlen]; omega)
    (initialGrid_getElem? size (size / 2).toNat hkn) hc0 (by rw [hrlen]; omega)]
  rfl

/-- Witness for `construct_succeeds_of_pos` at size 7. -/
theorem construct_succeeds_of_pos_witness :
    (Solitaire.construct 7).isSome = true :=
  construct_succeeds_of_pos 7 (by decide)

/-- C2: applying a move that is not in the currently enumerated valid-move
list raises the invalid-move error (`ValueError`) and leaves the board
state bit-for-bit unchanged. -/
theorem apply_move_invalid_unchanged (s : Solitaire) (m : Move)
    (h : m ∉ get_valid_moves s) :
    apply_move s m = (s, some ApplyErr.invalidMove) := by
  unfold apply_move
  simp [h]

/-- Witness for `apply_move_invalid_unchanged`: on the classic 7×7 board
the move `(0, 0, RIGHT)` is not enumerated, and applying it raises and
leaves the board unchanged. -/
theorem apply_move_invalid_unchanged_witness :
    apply_move classic (0, 0, MOVE.RIGHT) = (classic, some ApplyErr.invalidMove) :=
  apply_move_invalid_unchanged classic (0, 0, MOVE.RIGHT) (by decide)

/-- C7: the win check returns `true` exactly when the peg count is 1 and
the center cell `(size // 2, size // 2)` holds a peg. -/
theorem validate_win_iff (s : Solitaire) :
    validate_win s = true ↔
      count_pegs s = 1 ∧
        pyGet s.board (s.size.fdiv 2) (s.size.fdiv 2) = some Cell.peg := by
  unfold validate_win
  simp [Bool.and_eq_true, beq_iff_eq]

/-- C3: applying a currently enumerated move succeeds (no exception) and
performs exactly three cell updates — origin and jumped-over cell become
`Hole`, the landing cell becomes `Peg` — every other cell is unchanged,
the peg count drops by exactly one, and the number of occupied positions
(`Peg` plus `Hole` cells) is invariant. -/
theorem apply_move_valid_spec (s : Solitaire) (r c : Int) (d : MOVE)
    (hmem : (r, c, d) ∈ get_valid_moves s) :
    ∃ s2, apply_move s (r, c, d) = (s2, none) ∧
      s2.size = s.size ∧
      pyGet s2.board r c = some Cell.hole ∧
      pyGet s2.board (r + (DIRECTIONS d).2.2.1) (c + (DIRECTIONS d).2.2.2)
        = some Cell.hole ∧
      pyGet s2.board (r + (DIRECTIONS d).1) (c + (DIRECTIONS d).2.1)
        = some Cell.peg ∧
      (∀ r' c' : Int, 0 ≤ r' → 0 ≤ c' →
        (r', c') ≠ (r, c) →
        (r', c') ≠ (r + (DIRECTIONS d).2.2.1, c + (DIRECTIONS d).2.2.2) →
        (r', c') ≠ (r + (DIRECTIONS d).1, c + (DIRECTIONS d).2.1) →
        pyGet s2.board r' c' = pyGet s.board r' c') ∧
      count_pegs s2 + 1 = count_pegs s ∧
      count_occupied s2 = count_occupied s := by
  have hmem2 := hmem
  rw [mem_get_valid_moves] at hmem2
  obtain ⟨⟨hr0, hrs, hc0, hcs⟩, hvalid⟩ := hmem2
  rw [is_valid_move_iff] at hvalid
  obtain ⟨hb, horig, hland, hjump⟩ := hvalid
  obtain ⟨hjr0, hjrs, hjc0, hjcs⟩ := (jumped_cell_in_bounds s.size r c d
    hr0 hrs hc0 hcs hb.1 hb.2.1 hb.2.2.1 hb.2.2.2).1
  have hne_oj : ((r, c) : Int × Int)
      ≠ (r + (DIRECTIONS d).2.2.1, c + (DIRECTIONS d).2.2.2) := by
    cases d <;> simp [DIRECTIONS, Prod.ext_iff]
  have hne_ol : ((r, c) : Int × Int)
      ≠ (r + (DIRECTIONS d).1, c + (DIRECTIONS d).2.1) := by
    cases d <;> simp [DIRECTIONS, Prod.ext_iff]
  have hne_jl : ((r + (DIRECTIONS d).2.2.1, c + (DIRECTIONS d).2.2.2) : Int × Int)
      ≠ (r + (DIRECTIONS d).1, c + (DIRECTIONS d).2.1) := by
    cases d <;> simp [DIRECTIONS, Prod.ext_iff]
  obtain ⟨b1, hset1, hlen1, hget1, hother1, hcount1⟩ :=
    pySet_step Cell.hole hr0 hc0 horig
  have hjread1 : pyGet b1 (r + (DIRECTIONS d).2.2.1) (c + (DIRECTIONS d).2.2.2)
      = some Cell.peg := by
    rw [hother1 _ _ hjr0 hjc0 (Ne.symm hne_oj)]
    exact hjump
  obtain ⟨b2, hset2, hlen2, hget2, hother2, hcount2⟩ :=
    pySet_step Cell.hole hjr0 hjc0 hjread1
  have hlread2 : pyGet b2 (r + (DIRECTIONS d).1) (c + (DIRECTIONS d).2.1)
      = some Cell.hole := by
    rw [hother2 _ _ hb.1 hb.2.2.1 (Ne.symm hne_jl),
      hother1 _ _ hb.1 hb.2.2.1 (Ne.symm hne_ol)]
    exact hland
  obtain ⟨b3, hset3, hlen3, hget3, hother3, hcount3⟩ :=
    pySet_step Cell.peg hb.1 hb.2.2.1 hlread2
  refine ⟨{ s with board := b3 }, ?_, rfl, ?_, ?_, ?_, ?_, ?_, ?_⟩
  · simp only [apply_move, if_pos hmem, hset1, hset2, hset3]
  · rw [hother3 _ _ hr0 hc0 hne_ol, hother2 _ _ hr0 hc0 hne_oj]
    exact hget1
  · rw [hother3 _ _ hjr0 hjc0 hne_jl]
    exact hget2
  · exact hget3
  · intro r' c' h0' h1' hno hnj hnl
    rw [hother3 _ _ h0' h1' hnl, hother2 _ _ h0' h1' hnj,
      hother1 _ _ h0' h1' hno]
  · have hp1 := hcount1 Cell.peg
    have hp2 := hcount2 Cell.peg
    have hp3 := hcount3 Cell.peg
    have e1 : (if Cell.peg = Cell.peg then (1 : Nat) else 0) = 1 := rfl
    have e2 : (if Cell.hole = Cell.peg then (1 : Nat) else 0) = 0 := rfl
    rw [e1, e2] at hp1 hp2 hp3
    show (b3.map fun rho => rho.count Cell.peg).sum + 1
      = (s.board.map fun rho => rho.count Cell.peg).sum
    omega
  · have hp1 := hcount1 Cell.peg
    have hp2 := hcount2 Cell.peg
    have hp3 := hcount3 Cell.peg
    have hh1 := hcount1 Cell.hole
    have hh2 := hcount2 Cell.hole
    have hh3 := hcount3 Cell.hole
    have e1 : (if Cell.peg = Cell.peg then (1 : Nat) else 0) = 1 := rfl
    have e2 : (if Cell.hole = Cell.peg then (1 : Nat) else 0) = 0 := rfl
    have e3 : (if Cell.peg = Cell.hole then (1 : Nat) else 0) = 0 := rfl
    have e4 : (if Cell.hole = Cell.hole then (1 : Nat) else 0) = 1 := rfl
    rw [e1, e2] at hp1 hp2 hp3
    rw [e3, e4] at hh1 hh2 hh3
    show (b3.map fun rho => rho.count Cell.peg + rho.count Cell.hole).sum
      = (s.board.map fun rho => rho.count Cell.peg + rho.count Cell.hole).sum
    rw [sum_map_add, sum_map_add]
    omega

/-- Witness for `apply_move_valid_spec`: the move `(1, 3, DOWN)` on the
classic board succeeds and drops the peg count from 32 to 31. -/
theorem apply_move_valid_spec_witness :
    (apply_move classic (1, 3, MOVE.DOWN)).2 = none ∧
      count_pegs (apply_move classic (1, 3, MOVE.DOWN)).1 + 1 = count_pegs classic := by
  obtain ⟨s2, heq, -, -, -, -, -, hcount, -⟩ :=
    apply_move_valid_spec classic 1 3 MOVE.DOWN (by decide)
  rw [heq]
  exact ⟨rfl, hcount⟩

theorem two_le_count_of_getElem_pair {row : List Cell} {i j : Nat} {x : Cell}
    (hij : i ≠ j) (hi : row[i]? = some x) (hj : row[j]? = some x) :
    2 ≤ row.count x := by
  induction row generalizing i j with
  | nil => simp at hi
  | cons hd tl ih =>
    cases i with
    | zero =>
      cases j with
      | zero => exact absurd rfl hij
      | succ m =>
        simp only [List.getElem?_cons_zero, Option.some.injEq] at hi
        simp only [List.getElem?_cons_succ] at hj
        have hpos : 0 < tl.count x := List.count_pos_iff.mpr (List.getElem?_mem hj)
        subst hi
        rw [List.count_cons]
        simp only [beq_self_eq_true, if_true]
        omega
    | succ m =>
      cases j with
      | zero =>
        simp only [List.getElem?_cons_zero, Option.some.injEq] at hj
        simp only [List.getElem?_cons_succ] at hi
        have hpos : 0 < tl.count x := List.count_pos_iff.mpr (List.getElem?_mem hi)
        subst hj
        rw [List.count_cons]
        simp only [beq_self_eq_true, if_true]
        omega
      | succ k =>
        simp only [List.getElem?_cons_succ] at hi hj
        have hrec := ih (fun h => hij (by omega)) hi hj
        rw [List.count_cons]
        omega

theorem getElem_le_sum {l : List Nat} {i : Nat} {a : Nat} (h : l[i]? = some a) :
    a ≤ l.sum := by
  induction l generalizing i with
  | nil => simp at h
  | cons hd tl ih =>
    cases i with
    | zero =>
      simp only [List.getElem?_cons_zero, Option.some.injEq] at h
      subst h
      rw [List.sum_cons]
      omega
    | succ m =>
      simp only [List.getElem?_cons_succ] at h
      have hrec := ih h
      rw [List.sum_cons]
      omega

theorem getElem_pair_add_le_sum {l : List Nat} {i j : Nat} {a b : Nat}
    (hij : i ≠ j) (ha : l[i]? = some a) (hb : l[j]? = some b) :
    a + b ≤ l.sum := by
  induction l generalizing i j with
  | nil => simp at ha
  | cons hd tl ih =>
    cases i with
    | zero =>
      cases j with
      | zero => exact absurd rfl hij
      | succ m =>
        simp only [List.getElem?_cons_zero, Option.some.injEq] at ha
        simp only [List.getElem?_cons_succ] at hb
        have hle := getElem_le_sum hb
        subst ha
        rw [List.sum_cons]
        omega
    | succ m =>
      cases j with
      | zero =>
        simp only [List.getElem?_cons_zero, Option.some.injEq] at hb
        simp only [List.getElem?_cons_succ] at ha
        have hle := getElem_le_sum ha
        subst hb
        rw [List.sum_cons]
        omega
      | succ k =>
        simp only [List.getElem?_cons_succ] at ha hb
        have hrec := ih (fun h => hij (by omega)) ha hb
        rw [List.sum_cons]
        omega

/-- Two distinct (canonical, nonnegative) positions holding the same cell
value force the board-wide count of that value to be at least 2. -/
theorem two_le_board_count {b : Board} {r1 c1 r2 c2 : Int} {x : Cell}
    (h1r : 0 ≤ r1) (h1c : 0 ≤ c1) (h2r : 0 ≤ r2) (h2c : 0 ≤ c2)
    (hne : (r1, c1) ≠ (r2, c2))
    (h1 : pyGet b r1 c1 = some x) (h2 : pyGet b r2 c2 = some x) :
    2 ≤ (b.map fun rho => rho.count x).sum := by
  obtain ⟨row1, hrow1, hcell1⟩ := pyGet_nonneg_eq_some h1r h1c h1
  obtain ⟨row2, hrow2, hcell2⟩ := pyGet_nonneg_eq_some h2r h2c h2
  by_cases hr : r1.toNat = r2.toNat
  · have hre : r1 = r2 := by omega
    have hrowe : row1 = row2 := by
      rw [hre] at hrow1
      rw [hrow2] at hrow1
      exact (Option.some.injEq _ _).mp hrow1.symm
    have hcne : c1.toNat ≠ c2.toNat := by
      intro hcc
      exact hne (by rw [hre, show c1 = c2 by omega])
    have h2cnt := two_le_count_of_getElem_pair hcne hcell1 (hrowe ▸ hcell2)
    have hmap : (b.map fun rho => rho.count x)[r1.toNat]? = some (row1.count x) := by
      rw [List.getElem?_map, hrow1]
      rfl
    have hle := getElem_le_sum hmap
    omega
  · have hp1 : 0 < row1.count x := List.count_pos_iff.mpr (List.getElem?_mem hcell1)
    have hp2 : 0 < row2.count x := List.count_pos_iff.mpr (List.getElem?_mem hcell2)
    have hmap1 : (b.map fun rho => rho.count x)[r1.toNat]? = some (row1.count x) := by
      rw [List.getElem?_map, hrow1]
      rfl
    have hmap2 : (b.map fun rho => rho.count x)[r2.toNat]? = some (row2.count x) := by
      rw [List.getElem?_map, hrow2]
      rfl
    have hle := getElem_pair_add_le_sum hr hmap1 hmap2
    omega

/-- C8: the driver's game-over condition (`if not moves:`) holds exactly
when `get_valid_moves` returns the empty list; moreover a board with a
single remaining peg never has a legal move (a legal move needs two
distinct peg cells: origin and jumped-over). -/
theorem no_moves_iff_empty_and_single_peg (s : Solitaire) :
    (noMoves s = true ↔ get_valid_moves s = []) ∧
      (count_pegs s = 1 → get_valid_moves s = []) := by
  refine ⟨by simp [noMoves, List.isEmpty_iff], ?_⟩
  intro hone
  by_contra hnil
  obtain ⟨m, hm⟩ := List.exists_mem_of_ne_nil _ hnil
  obtain ⟨r, c, d⟩ := m
  rw [mem_get_valid_moves] at hm
  obtain ⟨⟨hr0, hrs, hc0, hcs⟩, hv⟩ := hm
  rw [is_valid_move_iff] at hv
  obtain ⟨hb, horig, hland, hjump⟩ := hv
  obtain ⟨hjr0, -, hjc0, -⟩ := (jumped_cell_in_bounds s.size r c d
    hr0 hrs hc0 hcs hb.1 hb.2.1 hb.2.2.1 hb.2.2.2).1
  have hnej : ((r, c) : Int × Int)
      ≠ (r + (DIRECTIONS d).2.2.1, c + (DIRECTIONS d).2.2.2) := by
    cases d <;> simp [DIRECTIONS, Prod.ext_iff]
  have h2 := two_le_board_count hr0 hc0 hjr0 hjc0 hnej horig hjump
  have he : count_pegs s = (s.board.map fun rho => rho.count Cell.peg).sum := rfl
  omega

/-- Witness for `no_moves_iff_empty_and_single_peg`: a 5×5 board with one
peg at the center has no legal moves. -/
theorem no_moves_iff_empty_and_single_peg_witness :
    (noMoves onePeg = true ↔ get_valid_moves onePeg = []) ∧
      get_valid_moves onePeg = [] :=
  ⟨(no_moves_iff_empty_and_single_peg onePeg).1,
   (no_moves_iff_empty_and_single_peg onePeg).2 (by decide)⟩

theorem initialGrid_pyGet (size : Int) (r c : Nat)
    (hr : r < size.toNat) (hc : c < size.toNat) :
    pyGet (initialGrid size) (r : Int) (c : Int)
      = some (if isCorner size (r : Int) (c : Int) then Cell.empty else Cell.peg) := by
  rw [pyGet_nonneg _ _ _ (by omega) (by omega)]
  rw [Int.toNat_natCast, Int.toNat_natCast]
  rw [initialGrid_getElem? size r hr]
  simp only [Option.some_bind]
  rw [List.getElem?_map, List.getElem?_range hc]
  rfl

/-- A cell read as a non-`Empty` value on a board whose corner cells are
all `Empty` cannot be a corner cell. -/
theorem not_corner_of_read (s : Solitaire) (hce : CornersEmpty s)
    (p q : Int) (x : Cell)
    (hp0 : 0 ≤ p) (hps : p < s.size) (hq0 : 0 ≤ q) (hqs : q < s.size)
    (hread : pyGet s.board p q = some x) (hx : x ≠ Cell.empty) :
    isCorner s.size p q = false := by
  by_contra hcor
  have hcor2 : isCorner s.size p q = true := by
    cases hcb : isCorner s.size p q with
    | false => exact absurd hcb hcor
    | true => rfl
  have hp : p.toNat < s.size.toNat := by omega
  have hq : q.toNat < s.size.toNat := by omega
  have hcell := hce p.toNat hp q.toNat hq
    (by rw [Int.toNat_of_nonneg hp0, Int.toNat_of_nonneg hq0]; exact hcor2)
  rw [Int.toNat_of_nonneg hp0, Int.toNat_of_nonneg hq0] at hcell
  rw [hread] at hcell
  simp only [Option.some.injEq] at hcell
  exact hx hcell

/-- On a board with empty corners, an enumerated legal move never touches
a corner cell: origin, jumped-over and landing cells are all non-corner. -/
theorem valid_move_not_corner (s : Solitaire) (hce : CornersEmpty s)
    (r c : Int) (d : MOVE) (hmem : (r, c, d) ∈ get_valid_moves s) :
    isCorner s.size r c = false ∧
      isCorner s.size (r + (DIRECTIONS d).2.2.1) (c + (DIRECTIONS d).2.2.2) = false ∧
      isCorner s.size (r + (DIRECTIONS d).1) (c + (DIRECTIONS d).2.1) = false := by
  rw [mem_get_valid_moves] at hmem
  obtain ⟨⟨hr0, hrs, hc0, hcs⟩, hv⟩ := hmem
  rw [is_valid_move_iff] at hv
  obtain ⟨hb, horig, hland, hjump⟩ := hv
  obtain ⟨hjr0, hjrs, hjc0, hjcs⟩ := (jumped_cell_in_bounds s.size r c d
    hr0 hrs hc0 hcs hb.1 hb.2.1 hb.2.2.1 hb.2.2.2).1
  exact ⟨not_corner_of_read s hce r c Cell.peg hr0 hrs hc0 hcs horig (by simp),
    not_corner_of_read s hce _ _ Cell.peg hjr0 hjrs hjc0 hjcs hjump (by simp),
    not_corner_of_read s hce _ _ Cell.hole hb.1 hb.2.1 hb.2.2.1 hb.2.2.2 hland (by simp)⟩

/-- A freshly constructed board of size at least 5 records that size and
has all corner-cut-out cells `Empty` (the center, the only cell rewritten
after the grid comprehension, is not a corner cell). -/
theorem construct_corners_empty (n : Int) (h5 : 5 ≤ n) (s0 : Solitaire)
    (hinit : Solitaire.construct n = some s0) :
    s0.size = n ∧ CornersEmpty s0 := by
  unfold Solitaire.construct at hinit
  cases hsb : setupBoard n with
  | none => rw [hsb] at hinit; simp at hinit
  | some b0 =>
    rw [hsb] at hinit
    simp only [Option.map_some', Option.some.injEq] at hinit
    subst hinit
    refine ⟨rfl, ?_⟩
    unfold setupBoard at hsb
    have hfd : n.fdiv 2 = n / 2 := Int.fdiv_eq_ediv _ (by omega)
    rw [hfd] at hsb
    have hc0 : 0 ≤ n / 2 := by omega
    have hcs : n / 2 < n := by omega
    have hn1 : ¬ (n / 2 < 2) := by omega
    have hn2 : ¬ (n - 2 ≤ n / 2) := by omega
    have hnotc : isCorner n (n / 2) (n / 2) = false := by
      simp [isCorner, hn1, hn2]
    have hkn : (n / 2).toNat < n.toNat := by omega
    have hread : pyGet (initialGrid n) (n / 2) (n / 2) = some Cell.peg := by
      have hg := initialGrid_pyGet n (n / 2).toNat (n / 2).toNat hkn hkn
      rw [Int.toNat_of_nonneg hc0] at hg
      rw [hg, hnotc]
      rfl
    obtain ⟨b2, hset, hlen, hget, hother, hcount⟩ := pySet_step Cell.hole hc0 hc0 hread
    rw [hset] at hsb
    have hb0 : b0 = b2 := by
      have hinj := (Option.some.injEq _ _).mp hsb
      exact hinj.symm
    subst hb0
    unfold CornersEmpty
    intro rn hrn cn hcn hcor
    have hrn2 : rn < n.toNat := hrn
    have hcn2 : cn < n.toNat := hcn
    have hcor2 : isCorner n (rn : Int) (cn : Int) = true := hcor
    have hne : (((rn : Nat) : Int), ((cn : Nat) : Int)) ≠ (n / 2, n / 2) := by
      intro heq
      simp only [Prod.mk.injEq] at heq
      rw [heq.1, heq.2] at hcor2
      rw [hnotc] at hcor2
      cases hcor2
    show pyGet b0 (rn : Int) (cn : Int) = some Cell.empty
    rw [hother _ _ (by omega) (by omega) hne]
    rw [initialGrid_pyGet n rn cn hrn2 hcn2, hcor2]
    rfl

/-- A successful `apply_move` writes only the three non-corner cells of
its (necessarily valid) move, so it keeps all corner cells `Empty` and
the recorded size. -/
theorem apply_move_preserves_corners {s s2 : Solitaire} {m : Move}
    (hce : CornersEmpty s) (happ : apply_move s m = (s2, none)) :
    CornersEmpty s2 ∧ s2.size = s.size := by
  by_cases hmem : m ∈ get_valid_moves s
  · obtain ⟨r, c, d⟩ := m
    obtain ⟨s3, heq, hsize, hor, hj, hl, hunch, -, -⟩ :=
      apply_move_valid_spec s r c d hmem
    rw [heq] at happ
    injection happ with h1 h2
    subst h1
    obtain ⟨hcor_o, hcor_j, hcor_l⟩ := valid_move_not_corner s hce r c d hmem
    refine ⟨?_, hsize⟩
    unfold CornersEmpty
    intro rn hrn cn hcn hcor
    have hrn2 : rn < s.size.toNat := by
      have hx : rn < s3.size.toNat := hrn
      rw [hsize] at hx
      exact hx
    have hcn2 : cn < s.size.toNat := by
      have hx : cn < s3.size.toNat := hcn
      rw [hsize] at hx
      exact hx
    have hcor2 : isCorner s.size (rn : Int) (cn : Int) = true := by
      have hx : isCorner s3.size (rn : Int) (cn : Int) = true := hcor
      rw [hsize] at hx
      exact hx
    have hne1 : (((rn : Nat) : Int), ((cn : Nat) : Int)) ≠ (r, c) := by
      intro heq2
      simp only [Prod.mk.injEq] at heq2
      rw [← heq2.1, ← heq2.2] at hcor_o
      simp [hcor2] at hcor_o
    have hne2 : (((rn : Nat) : Int), ((cn : Nat) : Int))
        ≠ (r + (DIRECTIONS d).2.2.1, c + (DIRECTIONS d).2.2.2) := by
      intro heq2
      simp only [Prod.mk.injEq] at heq2
      rw [← heq2.1, ← heq2.2] at hcor_j
      simp [hcor2] at hcor_j
    have hne3 : (((rn : Nat) : Int), ((cn : Nat) : Int))
        ≠ (r + (DIRECTIONS d).1, c + (DIRECTIONS d).2.1) := by
      intro heq2
      simp only [Prod.mk.injEq] at heq2
      rw [← heq2.1, ← heq2.2] at hcor_l
      simp [hcor2] at hcor_l
    show pyGet s3.board (rn : Int) (cn : Int) = some Cell.empty
    rw [hunch _ _ (by omega) (by omega) hne1 hne2 hne3]
    exact hce rn hrn2 cn hcn2 hcor2
  · rw [apply_move_invalid_unchanged s m hmem] at happ
    injection happ with h1 h2
    exact Option.noConfusion h2

/-- C9: on every board reachable from a validly constructed board (odd
size at least 5) by successful move applications, all four 2×2 corner
regions stay `Empty`, and no enumerated legal move uses a corner cell as
origin, jumped-over or landing cell (so no successful `apply_move` ever
writes to a corner cell). -/
theorem corner_cells_invariant (n : Int) (_hodd : n % 2 = 1) (h5 : 5 ≤ n)
    (s0 : Solitaire) (hinit : Solitaire.construct n = some s0)
    (ms : List Move) (s : Solitaire) (happ : applySeq s0 ms = some s) :
    CornersEmpty s ∧
      ∀ m ∈ get_valid_moves s,
        isCorner s.size m.1 m.2.1 = false ∧
        isCorner s.size (m.1 + (DIRECTIONS m.2.2).2.2.1)
          (m.2.1 + (DIRECTIONS m.2.2).2.2.2) = false ∧
        isCorner s.size (m.1 + (DIRECTIONS m.2.2).1)
          (m.2.1 + (DIRECTIONS m.2.2).2.1) = false := by
  obtain ⟨hsz0, hce0⟩ := construct_corners_empty n h5 s0 hinit
  have main : ∀ (l : List Move) (t u : Solitaire),
      CornersEmpty t → applySeq t l = some u → CornersEmpty u := by
    intro l
    induction l with
    | nil =>
      intro t u hce happ2
      unfold applySeq at happ2
      injection happ2 with h
      rw [← h]
      exact hce
    | cons m rest ih =>
      intro t u hce happ2
      unfold applySeq at happ2
      cases ha : apply_move t m with
      | mk t1 err =>
        rw [ha] at happ2
        cases err with
        | none => exact ih t1 u (apply_move_preserves_corners hce ha).1 happ2
        | some e =>
          have hcontra : (none : Option Solitaire) = some u := happ2
          exact Option.noConfusion hcontra
  have hceS := main ms s0 s hce0 happ
  refine ⟨hceS, ?_⟩
  intro m hm
  obtain ⟨r, c, d⟩ := m
  exact valid_move_not_corner s hceS r c d hm

/-- Witness for `corner_cells_invariant`: on the fresh 5×5 board (empty
move sequence) the cell `(0, 0)` is a corner and reads `Empty`. -/
theorem corner_cells_invariant_witness :
    pyGet board5.board 0 0 = some Cell.empty :=
  (corner_cells_invariant 5 (by decide) (by decide) board5 (by decide)
    [] board5 rfl).1 0 (by decide) 0 (by decide) (by decide)

theorem countP_eq_sum_map {α : Type} (l : List α) (p : α → Bool) :
    l.countP p = (l.map fun a => if p a then 1 else 0).sum := by
  induction l with
  | nil => rfl
  | cons hd tl ih =>
    rw [List.countP_cons, List.map_cons, List.sum_cons, ih]
    omega

/-- Sum of `f` over `range m` (`m ≥ 4`) when `f` takes the value `v` on
the two first and two last indices and `w` in between — the shape of all
per-row/per-column aggregates of a board with 2-cell corner cut-outs. -/
theorem sum_map_range_edge (m : Nat) (h4 : 4 ≤ m) (f : Nat → Nat) (v w : Nat)
    (h0 : f 0 = v) (h1 : f 1 = v)
    (hmid : ∀ a, 2 ≤ a → a < m - 2 → f a = w)
    (hm2 : f (m - 2) = v) (hm1 : f (m - 1) = v) :
    ((List.range m).map f).sum = 4 * v + (m - 4) * w := by
  have e1 := List.range'_append_1 0 2 (m - 4)
  rw [Nat.zero_add, show m - 4 + 2 = m - 2 by omega] at e1
  have e2 := List.range'_append_1 0 (m - 2) 2
  rw [Nat.zero_add, show 2 + (m - 2) = m by omega] at e2
  have hsplit : List.range m
      = (List.range' 0 2 ++ List.range' 2 (m - 4)) ++ List.range' (m - 2) 2 := by
    rw [List.range_eq_range', ← e2, ← e1]
  rw [hsplit, List.map_append, List.map_append, List.sum_append, List.sum_append]
  have hseg1 : (List.map f (List.range' 0 2)).sum = v + v := by
    show (List.map f [0, 1]).sum = v + v
    rw [List.map_cons, List.map_cons, List.map_nil, List.sum_cons, List.sum_cons,
      List.sum_nil, h0, h1]
    omega
  have hseg3 : (List.map f (List.range' (m - 2) 2)).sum = v + v := by
    show (List.map f [m - 2, m - 2 + 1]).sum = v + v
    rw [List.map_cons, List.map_cons, List.map_nil, List.sum_cons, List.sum_cons,
      List.sum_nil, hm2, show m - 2 + 1 = m - 1 by omega, hm1]
    omega
  have hseg2 : (List.map f (List.range' 2 (m - 4))).sum = (m - 4) * w := by
    have hcg : List.map f (List.range' 2 (m - 4))
        = List.map (fun _ => w) (List.range' 2 (m - 4)) := by
      apply List.map_congr_left
      intro a ha
      rw [List.mem_range'] at ha
      obtain ⟨i, hi, rfl⟩ := ha
      exact hmid _ (by omega) (by omega)
    rw [hcg, List.map_const', List.sum_const_nat, List.length_range']
  rw [hseg1, hseg2, hseg3]
  generalize (m - 4) * w = R
  omega

theorem grid_row_count_edge (n : Int) (m : Nat) (hnm : n = (m : Int)) (h5 : 5 ≤ m)
    (r : Nat) (hr : (r : Int) < 2 ∨ n - 2 ≤ (r : Int)) :
    List.count Cell.peg ((List.range m).map fun c : Nat =>
      if isCorner n (r : Int) (c : Int) then Cell.empty else Cell.peg) = m - 4 := by
  have hrowpart : (decide ((r : Int) < 2) || decide (n - 2 ≤ (r : Int))) = true := by
    rcases hr with h | h
    · simp [h]
    · simp [h]
  rw [List.count_eq_countP, List.countP_map, countP_eq_sum_map,
    sum_map_range_edge m (by omega) _ 0 1 ?h0 ?h1 ?hmid ?hm2 ?hm1]
  · omega
  case h0 =>
    have hc : ((0 : Nat) : Int) < 2 := by norm_num
    simp [Function.comp, isCorner, hrowpart, hc]
    omega
  case h1 =>
    have hc : ((1 : Nat) : Int) < 2 := by norm_num
    simp [Function.comp, isCorner, hrowpart, hc]
    omega
  case hmid =>
    intro a ha1 ha2
    have hc1 : ¬ ((a : Int) < 2) := by omega
    have hc2 : ¬ (n - 2 ≤ (a : Int)) := by omega
    simp [Function.comp, isCorner, hrowpart, hc1, hc2]
  case hm2 =>
    have hc : n - 2 ≤ ((m - 2 : Nat) : Int) := by omega
    simp [Function.comp, isCorner, hrowpart, hc]
    omega
  case hm1 =>
    have hc : n - 2 ≤ ((m - 1 : Nat) : Int) := by omega
    simp [Function.comp, isCorner, hrowpart, hc]
    omega

theorem grid_row_count_mid (n : Int) (m : Nat) (_hnm : n = (m : Int)) (_h5 : 5 ≤ m)
    (r : Nat) (hr1 : ¬ ((r : Int) < 2)) (hr2 : ¬ (n - 2 ≤ (r : Int))) :
    List.count Cell.peg ((List.range m).map fun c : Nat =>
      if isCorner n (r : Int) (c : Int) then Cell.empty else Cell.peg) = m := by
  have hconst : ∀ c ∈ List.range m,
      (if isCorner n (r : Int) (c : Int) then Cell.empty else Cell.peg)
        = (fun _ : Nat => Cell.peg) c := by
    intro c hc
    have hfc : isCorner n (r : Int) (c : Int) = false := by
      simp [isCorner, hr1, hr2]
    simp [hfc]
  rw [List.map_congr_left hconst, List.map_const', List.count_replicate_self,
    List.length_range]

theorem corner_row_count_edge (n : Int) (m : Nat) (hnm : n = (m : Int)) (h5 : 5 ≤ m)
    (r : Nat) (hr : (r : Int) < 2 ∨ n - 2 ≤ (r : Int)) :
    (List.range m).countP (fun c : Nat => isCorner n (r : Int) (c : Int)) = 4 := by
  have hrowpart : (decide ((r : Int) < 2) || decide (n - 2 ≤ (r : Int))) = true := by
    rcases hr with h | h
    · simp [h]
    · simp [h]
  rw [countP_eq_sum_map,
    sum_map_range_edge m (by omega) _ 1 0 ?h0 ?h1 ?hmid ?hm2 ?hm1]
  · omega
  case h0 =>
    have hc : ((0 : Nat) : Int) < 2 := by norm_num
    simp [isCorner, hrowpart, hc]
    omega
  case h1 =>
    have hc : ((1 : Nat) : Int) < 2 := by norm_num
    simp [isCorner, hrowpart, hc]
    omega
  case hmid =>
    intro a ha1 ha2
    have hc1 : ¬ ((a : Int) < 2) := by omega
    have hc2 : ¬ (n - 2 ≤ (a : Int)) := by omega
    simp [isCorner, hrowpart, hc1, hc2]
  case hm2 =>
    have hc : n - 2 ≤ ((m - 2 : Nat) : Int) := by omega
    simp [isCorner, hrowpart, hc]
    omega
  case hm1 =>
    have hc : n - 2 ≤ ((m - 1 : Nat) : Int) := by omega
    simp [isCorner, hrowpart, hc]
    omega

theorem corner_row_count_mid (n : Int) (m : Nat) (_hnm : n = (m : Int)) (_h5 : 5 ≤ m)
    (r : Nat) (hr1 : ¬ ((r : Int) < 2)) (hr2 : ¬ (n - 2 ≤ (r : Int))) :
    (List.range m).countP (fun c : Nat => isCorner n (r : Int) (c : Int)) = 0 := by
  rw [List.countP_eq_zero]
  intro c hc
  simp [isCorner, hr1, hr2]

theorem initialGrid_peg_count (n : Int) (m : Nat) (hnm : n = (m : Int)) (h5 : 5 ≤ m) :
    ((initialGrid n).map fun rho => rho.count Cell.peg).sum = m * m - 16 := by
  have hm : n.toNat = m := by omega
  unfold initialGrid
  rw [hm, List.map_map]
  rw [sum_map_range_edge m (by omega) _ (m - 4) m ?h0 ?h1 ?hmid ?hm2 ?hm1]
  · obtain ⟨k, rfl⟩ : ∃ k, m = k + 4 := ⟨m - 4, by omega⟩
    have e1 : (k + 4) * (k + 4) = k * k + 8 * k + 16 := by ring
    have e2 : k * (k + 4) = k * k + 4 * k := by ring
    rw [e1, Nat.add_sub_cancel, e2]
    generalize k * k = K
    omega
  case h0 => exact grid_row_count_edge n m hnm h5 0 (Or.inl (by norm_num))
  case h1 => exact grid_row_count_edge n m hnm h5 1 (Or.inl (by norm_num))
  case hmid =>
    intro a ha1 ha2
    exact grid_row_count_mid n m hnm h5 a (by omega) (by omega)
  case hm2 => exact grid_row_count_edge n m hnm h5 (m - 2) (Or.inr (by omega))
  case hm1 => exact grid_row_count_edge n m hnm h5 (m - 1) (Or.inr (by omega))

theorem initialGrid_hole_count (n : Int) :
    ((initialGrid n).map fun rho => rho.count Cell.hole).sum = 0 := by
  apply List.sum_eq_zero
  intro x hx
  rw [List.mem_map] at hx
  obtain ⟨row, hrow, rfl⟩ := hx
  rw [List.count_eq_zero]
  intro hmem
  unfold initialGrid at hrow
  rw [List.mem_map] at hrow
  obtain ⟨r, hr, rfl⟩ := hrow
  rw [List.mem_map] at hmem
  obtain ⟨c, hc, hcell⟩ := hmem
  by_cases hic : isCorner n (r : Int) (c : Int) = true
  · simp [hic] at hcell
  · simp [hic] at hcell

theorem corner_cells_total (n : Int) (m : Nat) (hnm : n = (m : Int)) (h5 : 5 ≤ m) :
    ((List.range m).map fun r : Nat =>
      (List.range m).countP fun c : Nat => isCorner n (r : Int) (c : Int)).sum = 16 := by
  rw [sum_map_range_edge m (by omega) _ 4 0 ?h0 ?h1 ?hmid ?hm2 ?hm1]
  · omega
  case h0 => exact corner_row_count_edge n m hnm h5 0 (Or.inl (by norm_num))
  case h1 => exact corner_row_count_edge n m hnm h5 1 (Or.inl (by norm_num))
  case hmid =>
    intro a ha1 ha2
    exact corner_row_count_mid n m hnm h5 a (by omega) (by omega)
  case hm2 => exact corner_row_count_edge n m hnm h5 (m - 2) (Or.inr (by omega))
  case hm1 => exact corner_row_count_edge n m hnm h5 (m - 1) (Or.inr (by omega))

/-- C6: a freshly constructed board of valid size (odd, at least 5) is
fully characterised: corner-cut-out cells are `Empty`, the center
`(size // 2, size // 2)` is the unique `Hole`, every other cell is a
`Peg`; the four 2×2 corner regions comprise 16 cells, and the peg count
is `size² − 16 − 1`. -/
theorem construct_board_characterization (n : Int) (_hodd : n % 2 = 1) (h5 : 5 ≤ n)
    (s0 : Solitaire) (hinit : Solitaire.construct n = some s0) :
    (∀ r c : Nat, r < n.toNat → c < n.toNat →
      pyGet s0.board (r : Int) (c : Int)
        = some (if isCorner n (r : Int) (c : Int) then Cell.empty
            else if (r : Int) = n / 2 ∧ (c : Int) = n / 2 then Cell.hole
            else Cell.peg)) ∧
    (s0.board.map fun rho => rho.count Cell.hole).sum = 1 ∧
    ((List.range n.toNat).map fun r : Nat =>
      (List.range n.toNat).countP fun c : Nat => isCorner n (r : Int) (c : Int)).sum = 16 ∧
    count_pegs s0 = n.toNat * n.toNat - 16 - 1 := by
  have hnm : n = ((n.toNat : Nat) : Int) := by omega
  have h5m : 5 ≤ n.toNat := by omega
  unfold Solitaire.construct at hinit
  cases hsb : setupBoard n with
  | none => rw [hsb] at hinit; simp at hinit
  | some b0 =>
    rw [hsb] at hinit
    simp only [Option.map_some', Option.some.injEq] at hinit
    subst hinit
    unfold setupBoard at hsb
    have hfd : n.fdiv 2 = n / 2 := Int.fdiv_eq_ediv _ (by omega)
    rw [hfd] at hsb
    have hc0 : 0 ≤ n / 2 := by omega
    have hcs : n / 2 < n := by omega
    have hn1 : ¬ (n / 2 < 2) := by omega
    have hn2 : ¬ (n - 2 ≤ n / 2) := by omega
    have hnotc : isCorner n (n / 2) (n / 2) = false := by
      simp [isCorner, hn1, hn2]
    have hkn : (n / 2).toNat < n.toNat := by omega
    have hread : pyGet (initialGrid n) (n / 2) (n / 2) = some Cell.peg := by
      have hg := initialGrid_pyGet n (n / 2).toNat (n / 2).toNat hkn hkn
      rw [Int.toNat_of_nonneg hc0] at hg
      rw [hg, hnotc]
      rfl
    obtain ⟨b2, hset, hlen, hget, hother, hcount⟩ := pySet_step Cell.hole hc0 hc0 hread
    rw [hset] at hsb
    have hb0 : b0 = b2 := ((Option.some.injEq _ _).mp hsb).symm
    subst hb0
    refine ⟨?_, ?_, ?_, ?_⟩
    · intro r c hr hc
      show pyGet b0 (r : Int) (c : Int) = _
      by_cases hcen : (r : Int) = n / 2 ∧ (c : Int) = n / 2
      · obtain ⟨he1, he2⟩ := hcen
        rw [he1, he2, hget, hnotc]
        simp
      · rw [hother _ _ (by omega) (by omega) ?hne]
        case hne =>
          intro heq
          simp only [Prod.mk.injEq] at heq
          exact hcen heq
        rw [initialGrid_pyGet n r c (by omega) (by omega)]
        by_cases hic : isCorner n (r : Int) (c : Int) = true
        · rw [hic]
          simp
        · have hic2 : isCorner n (r : Int) (c : Int) = false := by
            cases hb : isCorner n (r : Int) (c : Int) with
            | false => rfl
            | true => exact absurd hb hic
          rw [hic2]
          simp [hcen]
    · have hh := hcount Cell.hole
      have e3 : (if Cell.peg = Cell.hole then (1 : Nat) else 0) = 0 := rfl
      have e4 : (if Cell.hole = Cell.hole then (1 : Nat) else 0) = 1 := rfl
      rw [e3, e4, initialGrid_hole_count] at hh
      show (b0.map fun rho => rho.count Cell.hole).sum = 1
      omega
    · exact corner_cells_total n n.toNat hnm h5m
    · have hp := hcount Cell.peg
      have e1 : (if Cell.peg = Cell.peg then (1 : Nat) else 0) = 1 := rfl
      have e2 : (if Cell.hole = Cell.peg then (1 : Nat) else 0) = 0 := rfl
      rw [e1, e2, initialGrid_peg_count n n.toNat hnm h5m] at hp
      show (b0.map fun rho => rho.count Cell.peg).sum = n.toNat * n.toNat - 16 - 1
      have h25 : 25 ≤ n.toNat * n.toNat := Nat.mul_le_mul h5m h5m
      generalize hK : n.toNat * n.toNat = K at h25 hp ⊢
      omega

/-- Witness for `construct_board_characterization` at size 5: one hole,
and `5·5 − 16 − 1 = 8` pegs. -/
theorem construct_board_characterization_witness :
    (board5.board.map fun rho => rho.count Cell.hole).sum = 1 ∧
      count_pegs board5 = 8 := by
  obtain ⟨-, h1, -, h2⟩ :=
    construct_board_characterization 5 (by decide) (by decide) board5 (by decide)
  exact ⟨h1, h2⟩
